import Mathlib

/-!
Shallow embedding of the AMG compute kernel in `src/amgcl/cpu_level.hpp`
(`amg::level::cpu`): damped-Jacobi relaxation, residual norm, and the
recursive V-cycle over a sequence of multigrid levels.

The C++ template parameter `value_t` (a floating-point type) is modelled by
`ℚ`; the literal `0.72` is modelled by the rational `72/100`.  Vectors are
total functions `Nat → ℚ`; every write loop of the source touches exactly the
indices `i < n` for the relevant row count `n`, which the embedding mirrors
with an `if i < n then … else old` guard.  A compressed-row sparse matrix is
a row count together with the `row`, `col`, `val` arrays, modelled as
functions.  The per-row loops of the source become folds over the index range
`[row[i], row[i+1])`.
-/

namespace amg

/-- A vector, indexed by `Nat`. -/
abbrev Vec := Nat → ℚ

/-- Compressed-row sparse matrix: `sparse::matrix` as the kernel reads it
(`rows`, row-offset array `row`, column array `col`, value array `val`). -/
structure SpMat where
  rows : Nat
  rowBeg : Nat → Nat
  col : Nat → Nat
  val : Nat → ℚ

/-- Fold over the entries of row `i`: the loop
`for (j = A.row[i]; j < A.row[i+1]; ++j)` acting on `(A.col[j], A.val[j])`. -/
def rowFold {α : Type} (A : SpMat) (i : Nat) (f : α → Nat → ℚ → α) (a : α) : α :=
  (List.range' (A.rowBeg i) (A.rowBeg (i + 1) - A.rowBeg i)).foldl
    (fun acc j => f acc (A.col j) (A.val j)) a

/-- The `(column, value)` pairs of row `i`, in storage order. -/
def rowEntries (A : SpMat) (i : Nat) : List (Nat × ℚ) :=
  (List.range' (A.rowBeg i) (A.rowBeg (i + 1) - A.rowBeg i)).map
    (fun j => (A.col j, A.val j))

/-- Body of the relaxation loop for row `i` (cpu::relax): starting from
`temp = rhs[i]`, `diag = 1`, subtract `v * x[c]` for every entry of the row
and record `diag = v` whenever `c == i`; the staged value is
`x[i] + 0.72 * (temp / diag)`. -/
def relaxRow (A : SpMat) (rhs x : Vec) (i : Nat) : ℚ :=
  let td := rowFold A i
    (fun (p : ℚ × ℚ) c v => (p.1 - v * x c, if c = i then v else p.2))
    (rhs i, 1)
  x i + (72 / 100) * (td.1 / td.2)

/-- The staging buffer `t` after the relaxation loop: rows `i < A.rows` hold
the staged value, other indices keep the previous contents of `t`. -/
def relaxStep (A : SpMat) (rhs x t : Vec) : Vec :=
  fun i => if i < A.rows then relaxRow A rhs x i else t i

/-- One full `relax` sweep on the state `(x, t)` with the swap commit path of
`vector_copy` (same vector types): `t` receives the staged values and is
swapped with `x`. -/
def relaxSwap (A : SpMat) (rhs : Vec) (s : Vec × Vec) : Vec × Vec :=
  (relaxStep A rhs s.1 s.2, s.1)

/-- One full `relax` sweep on the state `(x, t)` with the element-wise copy
commit path of `vector_copy` (different vector types): `t` receives the
staged values and its first `A.rows` entries are copied into `x`. -/
def relaxCopy (A : SpMat) (rhs : Vec) (s : Vec × Vec) : Vec × Vec :=
  ((fun i => if i < A.rows then relaxStep A rhs s.1 s.2 i else s.1 i),
   relaxStep A rhs s.1 s.2)

/-- `n` successive `relax` sweeps (swap commit, as used between the
`std::vector` members inside the cycle). -/
def relaxIter (A : SpMat) (rhs : Vec) : Nat → Vec × Vec → Vec × Vec
  | 0, s => s
  | n + 1, s => relaxIter A rhs n (relaxSwap A rhs s)

/-- Row `i` of the residual `rhs - A*x` (the loop bodies of `cpu::resid` and
of the residual stage of `cpu::cycle`). -/
def residRow (A : SpMat) (rhs x : Vec) (i : Nat) : ℚ :=
  rowFold A i (fun a c v => a - v * x c) (rhs i)

/-- `cpu::resid`: per-row residual, accumulated sum of squares over
`i < A.rows`, then the square root.  `sqrt` comes from the numeric library of
`value_t` and is passed as the abstract function `sq`. -/
def resid (sq : ℚ → ℚ) (A : SpMat) (rhs x : Vec) : ℚ :=
  sq ((List.range A.rows).foldl
    (fun norm i =>
      let temp := residRow A rhs x i
      norm + temp * temp) 0)

/-- The operators of one multigrid level: system matrix `A`, prolongation
`P`, restriction `R`, and (terminal level) the inverse `Ai`.  They are moved
in at construction and never written afterwards. -/
structure Ops where
  A : SpMat
  P : SpMat
  R : SpMat
  Ai : SpMat

/-- The mutable scratch vectors of one level: `u`, `f`, `t`. -/
structure Scratch where
  u : Vec
  f : Vec
  t : Vec

/-- All-zero scratch vectors (used as the out-of-range default when
destructuring a scratch list). -/
def scratch0 : Scratch := ⟨fun _ => 0, fun _ => 0, fun _ => 0⟩

/-- Observable operations of one `cycle` invocation, recorded in execution
order: entry into `cycle` with `d` levels remaining, one `relax` sweep, the
fine-residual product, the restriction product, the zero-initialisation of
the coarse correction, the prolongation update, and the terminal direct
solve. -/
inductive Event where
  | enter (d : Nat)
  | relax
  | residual
  | restrict
  | zero
  | prolong
  | solve
  deriving DecidableEq

/-- Number of occurrences of event `e` in a trace. -/
def countE (e : Event) (tr : List Event) : Nat :=
  (tr.filter (fun a => a = e)).length

/-- The cycle configuration `amg::params` as the kernel reads it: number of
cycle repetitions per level, pre- and post-relaxation sweep counts. -/
structure Params where
  ncycle : Nat
  npre : Nat
  npost : Nat

/-- The `for (j = 0; j < prm.ncycle; ++j)` loop: iterate `body`. -/
def cycleLoop {α : Type} (body : α → α) : Nat → α → α
  | 0, s => s
  | n + 1, s => cycleLoop body n (body s)

/-- `lvl->t = rhs - lvl->A * x` for rows `i < A.rows`. -/
def residVec (A : SpMat) (rhs xv tv : Vec) : Vec :=
  fun i => if i < A.rows then residRow A rhs xv i else tv i

/-- `nxt->f = lvl->R * lvl->t` for the `nc` coarse rows. -/
def restrictVec (R : SpMat) (nc : Nat) (tv fv : Vec) : Vec :=
  fun i => if i < nc then rowFold R i (fun a c v => a + v * tv c) 0 else fv i

/-- `std::fill(nxt->u.begin(), nxt->u.end(), 0)` over the `nc` coarse rows. -/
def zeroVec (nc : Nat) (uv : Vec) : Vec :=
  fun i => if i < nc then 0 else uv i

/-- `x += lvl->P * nxt->u` for rows `i < n`. -/
def prolongAdd (P : SpMat) (n : Nat) (xv uv : Vec) : Vec :=
  fun i => if i < n then xv i + rowFold P i (fun a c v => a + v * uv c) 0 else xv i

/-- `x[i] = Σ_j Ai[i,j] * rhs[j]` over rows `i < n` (terminal direct solve). -/
def solveVec (Ai : SpMat) (n : Nat) (rhs xv : Vec) : Vec :=
  fun i => if i < n then rowFold Ai i (fun a c v => a + v * rhs c) 0 else xv i

/-- One iteration of the `ncycle` loop body of `cpu::cycle` on a non-terminal
level with operators `op`, next-coarser operators `nop`.  The state is the
current `x`, the scratch vectors of this level and below, and the event trace.
`recur` is the recursive `cycle` call on the tail of the level sequence.
The recursive call receives `nxt->f` and `nxt->u` both as its `(rhs, x)`
arguments and through the scratch list; since the C++ passes `nxt->u` by
reference as `x`, the returned solution is written back into the coarse
level's `u` slot. -/
def cycleBody (op nop : Ops) (prm : Params) (rhs : Vec)
    (recur : Vec → Vec → List Scratch → Vec × List Scratch × List Event)
    (s : Vec × List Scratch × List Event) : Vec × List Scratch × List Event :=
  let s0 := s.2.1.headD scratch0
  let s1 := s.2.1.tail.headD scratch0
  let srest := s.2.1.tail.tail
  let pre := relaxIter op.A rhs prm.npre (s.1, s0.t)
  let t2 := residVec op.A rhs pre.1 pre.2
  let f1 := restrictVec op.R nop.A.rows t2 s1.f
  let u0 := zeroVec nop.A.rows s1.u
  let rec1 := recur f1 u0 (⟨u0, f1, s1.t⟩ :: srest)
  let x2 := prolongAdd op.P op.A.rows pre.1 rec1.1
  let post := relaxIter op.A rhs prm.npost (x2, t2)
  (post.1,
   ⟨s0.u, s0.f, post.2⟩ :: ⟨rec1.1, (rec1.2.1.headD scratch0).f, (rec1.2.1.headD scratch0).t⟩ :: rec1.2.1.tail,
   s.2.2 ++ (List.replicate prm.npre Event.relax ++
     (Event.residual :: Event.restrict :: Event.zero ::
       (rec1.2.2 ++ (Event.prolong :: List.replicate prm.npost Event.relax)))))

/-- `cpu::cycle` over the level sequence `[lvl, end)`, configuration
`prm = (ncycle, npre, npost)`, right-hand side `rhs` and iterate `x`; the
scratch vectors of the levels are threaded through `ss`.  Returns the updated
`x`, the updated scratch vectors and the event trace. -/
def cycle : List Ops → Params → Vec → Vec → List Scratch →
    Vec × List Scratch × List Event
  | [], _, _, x, ss => (x, ss, [])
  | [op], _, rhs, x, ss =>
      (solveVec op.Ai op.A.rows rhs x, ss, [Event.enter 1, Event.solve])
  | op :: nop :: ops, prm, rhs, x, ss =>
      cycleLoop
        (cycleBody op nop prm rhs (fun a b c => cycle (nop :: ops) prm a b c))
        prm.ncycle (x, ss, [Event.enter (ops.length + 2)])

/-- The value the relaxation loop leaves in `diag` for row `i`: the value of
the last entry of the row whose column equals `i`, or the fallback `1` when
the row has no such entry. -/
def diagOf (A : SpMat) (i : Nat) : ℚ :=
  (rowEntries A i).foldl (fun d p => if p.1 = i then p.2 else d) 1

/-- Sum of `A[i,j] * x[j]` over all stored entries of row `i`. -/
def entrySum (A : SpMat) (x : Vec) (i : Nat) : ℚ :=
  ((rowEntries A i).map (fun p => p.2 * x p.1)).sum

/-- Sum of `A[i,j] * x[j]` over the entries of row `i` whose column differs
from `i` (the claim's "non-diagonal entries"). -/
def offDiagSum (A : SpMat) (x : Vec) (i : Nat) : ℚ :=
  (((rowEntries A i).filter (fun p => ¬ p.1 = i)).map (fun p => p.2 * x p.1)).sum

/-! ### Concrete instances used by counterexamples and witnesses -/

/-- The 1×1 matrix `[2]` in compressed-row form. -/
def mat1 : SpMat := ⟨1, fun j => j, fun _ => 0, fun _ => 2⟩

/-- A 2×2 matrix with entries only at `(0,1)` and `(1,0)` (value `3`): no row
has a diagonal entry. -/
def matNoDiag : SpMat := ⟨2, fun j => j, fun j => 1 - j, fun _ => 3⟩

/-- A level whose four operators are all `mat1`. -/
def opsTriv : Ops := ⟨mat1, mat1, mat1, mat1⟩

/-- The zero vector. -/
def vZero : Vec := fun _ => 0

/-- The all-ones vector. -/
def vOne : Vec := fun _ => 1

/-! ### Fold lemmas relating the source loops to list sums -/

theorem foldl_sub_sum {α : Type} (g : α → ℚ) (l : List α) (a : ℚ) :
    l.foldl (fun acc p => acc - g p) a = a - (l.map g).sum := by
  induction l generalizing a with
  | nil => simp
  | cons p l ih => simp [ih]; ring

theorem foldl_add_sum {α : Type} (g : α → ℚ) (l : List α) (a : ℚ) :
    l.foldl (fun acc p => acc + g p) a = a + (l.map g).sum := by
  induction l generalizing a with
  | nil => simp
  | cons p l ih => simp [ih]; ring

theorem rowFold_entries {α : Type} (A : SpMat) (i : Nat) (f : α → Nat → ℚ → α) (a : α) :
    rowFold A i f a = (rowEntries A i).foldl (fun acc p => f acc p.1 p.2) a := by
  simp [rowFold, rowEntries, List.foldl_map]

theorem foldl_relax_split (x : Vec) (i : Nat) (l : List (Nat × ℚ)) (a b : ℚ) :
    l.foldl (fun (p : ℚ × ℚ) cv => (p.1 - cv.2 * x cv.1, if cv.1 = i then cv.2 else p.2)) (a, b)
      = (a - (l.map (fun cv => cv.2 * x cv.1)).sum,
         l.foldl (fun d cv => if cv.1 = i then cv.2 else d) b) := by
  induction l generalizing a b with
  | nil => simp
  | cons p l ih => simp [ih]; ring

theorem foldl_diag_nomatch (i : Nat) (l : List (Nat × ℚ))
    (h : l.filter (fun p => p.1 = i) = []) (b : ℚ) :
    l.foldl (fun d p => if p.1 = i then p.2 else d) b = b := by
  induction l generalizing b with
  | nil => simp
  | cons p l ih =>
    by_cases hp : p.1 = i
    · simp [hp, List.filter_cons] at h
    · rw [List.filter_cons_of_neg (by simpa using hp)] at h
      simp [hp, ih h]

theorem foldl_diag_unique (i : Nat) (d : ℚ) (l : List (Nat × ℚ))
    (h : l.filter (fun p => p.1 = i) = [(i, d)]) (b : ℚ) :
    l.foldl (fun d0 p => if p.1 = i then p.2 else d0) b = d := by
  induction l generalizing b with
  | nil => simp at h
  | cons p l ih =>
    by_cases hp : p.1 = i
    · rw [List.filter_cons_of_pos (by simpa using hp)] at h
      have hpd : p = (i, d) := (List.cons_eq_cons.mp h).1
      have hrest : l.filter (fun p => p.1 = i) = [] := (List.cons_eq_cons.mp h).2
      simp [hp, hpd, foldl_diag_nomatch i l hrest]
    · rw [List.filter_cons_of_neg (by simpa using hp)] at h
      simp [hp, ih h]

theorem map_sum_filter_split {α : Type} (q : α → Prop) [DecidablePred q]
    (g : α → ℚ) (l : List α) :
    (l.map g).sum
      = ((l.filter (fun a => q a)).map g).sum
        + ((l.filter (fun a => ¬ q a)).map g).sum := by
  induction l with
  | nil => simp
  | cons p l ih =>
    by_cases hp : q p
    · simp [List.filter_cons, hp, ih]; ring
    · simp [List.filter_cons, hp, ih]; ring

/-- The staged relaxation value of row `i`, written with the accumulator pair
split into the full-row sum and the recorded diagonal. -/
theorem relaxRow_eq (A : SpMat) (rhs x : Vec) (i : Nat) :
    relaxRow A rhs x i
      = x i + (72 / 100) * ((rhs i - entrySum A x i) / diagOf A i) := by
  simp only [relaxRow, rowFold_entries, foldl_relax_split, entrySum, diagOf]

/-! ### Claims about `cpu::relax` -/

/-- Claim C1, counterexample: the claim states that the subtracted sum in the
relaxation update ranges over the non-diagonal entries only.  On the 1×1
matrix `A = [2]` with `x = [1]`, `rhs = [0]` the code commits
`1 + 0.72 * ((0 - 2*1) / 2) = 7/25`, while the claimed formula (the
diagonal entry excluded from the sum) gives `1 + 0.72 * ((0 - 0) / 2) = 1`:
the code subtracts the diagonal term as well. -/
theorem relax_offdiag_claim_cex :
    ¬ ((relaxSwap mat1 vZero (vOne, vZero)).1 0
        = vOne 0 + (72 / 100) * ((vZero 0 - offDiagSum mat1 vOne 0) / diagOf mat1 0)) := by
  norm_num [relaxSwap, relaxStep, relaxRow, rowFold, rowEntries, mat1, vOne, vZero,
    offDiagSum, diagOf, List.range']

/-- Claim C1, amended: for every row `i < A.rows`, the value committed into
`x[i]` by one `relax` sweep is `x_pre[i] + 0.72 * (temp / diag)` where
`temp = rhs[i] - Σ_j A[i,j] * x_pre[j]` sums over ALL stored entries of the
row (the diagonal entry included), and `diag` is the value of the row's
diagonal entry (the fallback `1` when there is none). -/
theorem relax_committed_formula (A : SpMat) (rhs x t : Vec) (i : Nat) (hi : i < A.rows) :
    (relaxSwap A rhs (x, t)).1 i
      = x i + (72 / 100) * ((rhs i - entrySum A x i) / diagOf A i) := by
  simp [relaxSwap, relaxStep, hi, relaxRow_eq]

/-- Witness for `relax_committed_formula` on the 1×1 matrix `[2]`. -/
theorem relax_committed_formula_witness :
    (relaxSwap mat1 vZero (vOne, vZero)).1 0
      = vOne 0 + (72 / 100) * ((vZero 0 - entrySum mat1 vOne 0) / diagOf mat1 0) :=
  relax_committed_formula mat1 vZero vOne vZero 0 (by decide)

/-- Claim C10: for a row with exactly one diagonal entry of value `d ≠ 0`,
the committed value is `x_pre[i] + 0.72 * (rhs[i] - Σ_j A[i,j]*x_pre[j]) / d`
with the diagonal term included in the subtracted sum; equivalently
`(1 - 0.72)*x_pre[i] + 0.72*(rhs[i] - Σ_{j≠i} A[i,j]*x_pre[j]) / d`
(standard damped Jacobi). -/
theorem relax_unique_diag (A : SpMat) (rhs x t : Vec) (i : Nat) (d : ℚ)
    (hi : i < A.rows)
    (hd : (rowEntries A i).filter (fun p => p.1 = i) = [(i, d)])
    (hdz : d ≠ 0) :
    (relaxSwap A rhs (x, t)).1 i
      = x i + (72 / 100) * ((rhs i - entrySum A x i) / d)
    ∧ (relaxSwap A rhs (x, t)).1 i
      = (1 - 72 / 100) * x i + (72 / 100) * ((rhs i - offDiagSum A x i) / d) := by
  have hdiag : diagOf A i = d := foldl_diag_unique i d _ hd 1
  have h1 : (relaxSwap A rhs (x, t)).1 i
      = x i + (72 / 100) * ((rhs i - entrySum A x i) / d) := by
    simp [relaxSwap, relaxStep, hi, relaxRow_eq, hdiag]
  have hsplit : entrySum A x i = d * x i + offDiagSum A x i := by
    have hs := map_sum_filter_split (fun p => p.1 = i) (fun p => p.2 * x p.1) (rowEntries A i)
    simp only [entrySum, offDiagSum]
    rw [hs, hd]
    simp
  refine ⟨h1, ?_⟩
  rw [h1, hsplit]
  field_simp
  ring

/-- Witness for `relax_unique_diag` on the 1×1 matrix `[2]`. -/
theorem relax_unique_diag_witness :
    (relaxSwap mat1 vZero (vOne, vZero)).1 0
      = vOne 0 + (72 / 100) * ((vZero 0 - entrySum mat1 vOne 0) / 2)
    ∧ (relaxSwap mat1 vZero (vOne, vZero)).1 0
      = (1 - 72 / 100) * vOne 0 + (72 / 100) * ((vZero 0 - offDiagSum mat1 vOne 0) / 2) :=
  relax_unique_diag mat1 vZero vOne vZero 0 2 (by decide) (by decide) (by norm_num)

/-- Claim C8: for a row with no diagonal entry, `diag` keeps its
initialisation `1` and the update goes through with that fallback — `relax`
is a total function here, raising no error and no assertion. -/
theorem relax_missing_diag (A : SpMat) (rhs x t : Vec) (i : Nat)
    (hi : i < A.rows)
    (hd : (rowEntries A i).filter (fun p => p.1 = i) = []) :
    diagOf A i = 1
    ∧ (relaxSwap A rhs (x, t)).1 i
        = x i + (72 / 100) * ((rhs i - entrySum A x i) / 1) := by
  have hdiag : diagOf A i = 1 := by
    unfold diagOf
    exact foldl_diag_nomatch i _ hd 1
  exact ⟨hdiag, by simp [relaxSwap, relaxStep, hi, relaxRow_eq, hdiag]⟩

/-- Witness for `relax_missing_diag` on the 2×2 matrix with no diagonal. -/
theorem relax_missing_diag_witness :
    diagOf matNoDiag 0 = 1
    ∧ (relaxSwap matNoDiag vZero (vOne, vZero)).1 0
        = vOne 0 + (72 / 100) * ((vZero 0 - entrySum matNoDiag vOne 0) / 1) :=
  relax_missing_diag matNoDiag vZero vOne vZero 0 (by decide) (by decide)

/-- Claim C4: each row's committed value is `relaxRow` applied to the
pre-sweep `x` — a function of the pre-sweep iterate only, so no row observes
another row's in-sweep update; the value is staged in the buffer `t`
(conjunct on `(relaxCopy …).2`) and committed into `x` identically by both
`vector_copy` paths (swap of same-typed buffers, element-wise copy
otherwise); the swap path leaves the pre-sweep `x` in `t`.  `rhs` is a
read-only argument of every definition involved. -/
theorem relax_pre_sweep_paths (A : SpMat) (rhs x t : Vec) (i : Nat) (hi : i < A.rows) :
    (relaxSwap A rhs (x, t)).1 i = relaxRow A rhs x i
    ∧ (relaxCopy A rhs (x, t)).1 i = relaxRow A rhs x i
    ∧ (relaxCopy A rhs (x, t)).2 i = relaxRow A rhs x i
    ∧ (relaxSwap A rhs (x, t)).2 = x := by
  exact ⟨by simp [relaxSwap, relaxStep, hi], by simp [relaxCopy, relaxStep, hi],
    by simp [relaxCopy, relaxStep, hi], rfl⟩

/-- Witness for `relax_pre_sweep_paths` on the 1×1 matrix `[2]`. -/
theorem relax_pre_sweep_paths_witness :
    (relaxSwap mat1 vZero (vOne, vZero)).1 0 = relaxRow mat1 vZero vOne 0
    ∧ (relaxCopy mat1 vZero (vOne, vZero)).1 0 = relaxRow mat1 vZero vOne 0
    ∧ (relaxCopy mat1 vZero (vOne, vZero)).2 0 = relaxRow mat1 vZero vOne 0
    ∧ (relaxSwap mat1 vZero (vOne, vZero)).2 = vOne :=
  relax_pre_sweep_paths mat1 vZero vOne vZero 0 (by decide)

/-! ### Claim about `cpu::resid` -/

/-- Row `i` of the residual, written as `rhs[i]` minus the sparse row sum. -/
theorem residRow_eq (A : SpMat) (rhs x : Vec) (i : Nat) :
    residRow A rhs x i = rhs i - entrySum A x i := by
  simp only [residRow, rowFold_entries, entrySum]
  exact foldl_sub_sum (fun p : Nat × ℚ => p.2 * x p.1) (rowEntries A i) (rhs i)

/-- Claim C5: `resid` returns the square root (the numeric library's `sqrt`,
abstracted as `sq`) of the sum over all rows `i < A.rows` of the squared
residual `(rhs[i] - (A*x)[i])²`.  It is a pure function of its arguments —
it mutates nothing, and two successive calls on unchanged arguments are the
same value (second conjunct). -/
theorem resid_sq_sum (sq : ℚ → ℚ) (A : SpMat) (rhs x : Vec) :
    resid sq A rhs x
      = sq (((List.range A.rows).map
          (fun i => (rhs i - entrySum A x i) * (rhs i - entrySum A x i))).sum)
    ∧ resid sq A rhs x = resid sq A rhs x := by
  refine ⟨?_, rfl⟩
  unfold resid
  simp only [residRow_eq]
  rw [foldl_add_sum (fun i => (rhs i - entrySum A x i) * (rhs i - entrySum A x i))
    (List.range A.rows) 0]
  rw [zero_add]

/-! ### Trace-counting infrastructure for `cpu::cycle` -/

theorem countE_nil (e : Event) : countE e [] = 0 := rfl

theorem countE_cons (e a : Event) (l : List Event) :
    countE e (a :: l) = (if a = e then 1 else 0) + countE e l := by
  by_cases h : a = e
  · simp [countE, List.filter_cons, h, Nat.add_comm]
  · simp [countE, List.filter_cons, h]

theorem countE_append (e : Event) (l1 l2 : List Event) :
    countE e (l1 ++ l2) = countE e l1 + countE e l2 := by
  simp [countE, List.filter_append]

theorem countE_replicate_ne (e a : Event) (h : ¬ a = e) (m : Nat) :
    countE e (List.replicate m a) = 0 := by
  induction m with
  | zero => rfl
  | succ m ih => rw [List.replicate_succ, countE_cons, ih]; simp [h]

/-- Unfolding of `cycle` on a single (terminal) level. -/
theorem cycle_one (op : Ops) (prm : Params) (rhs x : Vec) (ss : List Scratch) :
    cycle [op] prm rhs x ss
      = (solveVec op.Ai op.A.rows rhs x, ss, [Event.enter 1, Event.solve]) := rfl

/-- Unfolding of `cycle` on a non-terminal level. -/
theorem cycle_cons_cons (op nop : Ops) (ops : List Ops) (prm : Params)
    (rhs x : Vec) (ss : List Scratch) :
    cycle (op :: nop :: ops) prm rhs x ss
      = cycleLoop
          (cycleBody op nop prm rhs (fun a b c => cycle (nop :: ops) prm a b c))
          prm.ncycle (x, ss, [Event.enter (ops.length + 2)]) := by
  rw [cycle]

/-- Event count after the `ncycle` loop, when every loop body appends a
fixed number `K` of copies of the event. -/
theorem cycleLoop_count (e : Event)
    (body : Vec × List Scratch × List Event → Vec × List Scratch × List Event) (K : Nat)
    (hb : ∀ s, countE e (body s).2.2 = countE e s.2.2 + K) :
    ∀ (n : Nat) (s : Vec × List Scratch × List Event),
      countE e (cycleLoop body n s).2.2 = countE e s.2.2 + n * K := by
  intro n
  induction n with
  | zero => intro s; simp [cycleLoop]
  | succ n ih =>
    intro s
    rw [cycleLoop, ih (body s), hb s, Nat.succ_mul]
    omega

/-- Master count of `enter` events: in the trace of `cycle` on `1 + l.length`
levels, the invocation of a level with `k` remaining levels occurs
`ncycle ^ (depth - k)` times for `1 ≤ k ≤ depth`, and never otherwise. -/
theorem cycle_count_enter (prm : Params) (k : Nat) :
    ∀ (l : List Ops) (op : Ops) (rhs x : Vec) (ss : List Scratch),
      countE (Event.enter k) (cycle (op :: l) prm rhs x ss).2.2
        = if 1 ≤ k ∧ k ≤ l.length + 1 then prm.ncycle ^ (l.length + 1 - k) else 0 := by
  intro l
  induction l with
  | nil =>
    intro op rhs x ss
    rw [cycle_one]
    simp only [countE_cons, countE_nil, List.length_nil]
    by_cases hk : k = 1
    · subst hk; simp
    · have h1 : ¬ (Event.enter 1 = Event.enter k) := by
        simp
        omega
      have h2 : ¬ (1 ≤ k ∧ k ≤ 0 + 1) := by omega
      simp [h1, h2]
  | cons nop ops ih =>
    intro op rhs x ss
    rw [cycle_cons_cons]
    rw [cycleLoop_count (Event.enter k) _
      (if 1 ≤ k ∧ k ≤ ops.length + 1 then prm.ncycle ^ (ops.length + 1 - k) else 0)
      (by
        intro s
        simp only [cycleBody]
        simp only [countE_append, countE_cons, countE_nil]
        rw [countE_replicate_ne _ _ (by simp), countE_replicate_ne _ _ (by simp)]
        simp only [ih]
        simp)]
    simp only [countE_cons, countE_nil, List.length_cons]
    by_cases hk : k = ops.length + 2
    · have h1 : (Event.enter (ops.length + 1 + 1) = Event.enter k) := by
        simp; omega
      have h2 : ¬ (1 ≤ k ∧ k ≤ ops.length + 1) := by omega
      have h3 : (1 ≤ k ∧ k ≤ ops.length + 1 + 1) := by omega
      simp [h1, h2, h3, hk]
    · have h1 : ¬ (Event.enter (ops.length + 1 + 1) = Event.enter k) := by
        simp; omega
      by_cases hk2 : 1 ≤ k ∧ k ≤ ops.length + 1
      · have h3 : (1 ≤ k ∧ k ≤ ops.length + 1 + 1) := by omega
        have hd : ops.length + 1 + 1 - k = (ops.length + 1 - k) + 1 := by omega
        simp only [h1, hk2, h3, if_true, if_pos, if_neg, hd]
        simp [pow_succ]
        ring
      · have h3 : ¬ (1 ≤ k ∧ k ≤ ops.length + 1 + 1) := by omega
        simp [h1, hk2, h3]

/-- Master count of terminal direct solves: `ncycle ^ (depth - 1)` per outer
call. -/
theorem cycle_count_solve (prm : Params) :
    ∀ (l : List Ops) (op : Ops) (rhs x : Vec) (ss : List Scratch),
      countE Event.solve (cycle (op :: l) prm rhs x ss).2.2 = prm.ncycle ^ l.length := by
  intro l
  induction l with
  | nil =>
    intro op rhs x ss
    rw [cycle_one]
    simp [countE_cons, countE_nil]
  | cons nop ops ih =>
    intro op rhs x ss
    rw [cycle_cons_cons]
    rw [cycleLoop_count Event.solve _ (prm.ncycle ^ ops.length)
      (by
        intro s
        simp only [cycleBody]
        simp only [countE_append, countE_cons, countE_nil]
        rw [countE_replicate_ne _ _ (by simp), countE_replicate_ne _ _ (by simp)]
        simp only [ih]
        simp)]
    simp only [countE_cons, countE_nil, List.length_cons]
    simp [pow_succ]
    ring

/-- Master count of restriction and prolongation products for `ncycle = 1`:
one per non-terminal level, so `depth - 1` in total. -/
theorem cycle_count_rp (prm : Params) (e : Event)
    (he : e = Event.restrict ∨ e = Event.prolong) (h1 : prm.ncycle = 1) :
    ∀ (l : List Ops) (op : Ops) (rhs x : Vec) (ss : List Scratch),
      countE e (cycle (op :: l) prm rhs x ss).2.2 = l.length := by
  intro l
  induction l with
  | nil =>
    intro op rhs x ss
    rw [cycle_one]
    rcases he with h | h <;> subst h <;> simp [countE_cons, countE_nil]
  | cons nop ops ih =>
    intro op rhs x ss
    rw [cycle_cons_cons]
    rw [cycleLoop_count e _ (1 + ops.length)
      (by
        intro s
        simp only [cycleBody]
        simp only [countE_append, countE_cons, countE_nil]
        rw [countE_replicate_ne _ _ (by rcases he with h | h <;> simp [h]),
          countE_replicate_ne _ _ (by rcases he with h | h <;> simp [h])]
        simp only [ih]
        rcases he with h | h <;> (subst h; simp; try ring))]
    rw [h1]
    simp only [countE_cons, countE_nil, List.length_cons]
    rcases he with h | h <;> (subst h; simp; try omega)

/-! ### Claims about `cpu::cycle` -/

/-- Claim C3: on the last level of the sequence, `cycle` assigns
`x[i] = Σ_j Ai[i,j] * rhs[j]` to every row `i < n` (discarding the prior
contents of `x` there, which do not appear in the formula), leaves `x`
untouched beyond `n` and every scratch vector untouched, and its trace is
exactly the invocation marker followed by the direct solve — no relaxation
event and no further invocation, for every configuration value of `ncycle`,
`npre`, `npost`. -/
theorem cycle_terminal_solve (op : Ops) (prm : Params) (rhs x : Vec) (ss : List Scratch) :
    (∀ i, i < op.A.rows →
      (cycle [op] prm rhs x ss).1 i
        = ((rowEntries op.Ai i).map (fun p => p.2 * rhs p.1)).sum)
    ∧ (∀ i, ¬ i < op.A.rows → (cycle [op] prm rhs x ss).1 i = x i)
    ∧ (cycle [op] prm rhs x ss).2.1 = ss
    ∧ (cycle [op] prm rhs x ss).2.2 = [Event.enter 1, Event.solve] := by
  refine ⟨?_, ?_, rfl, rfl⟩
  · intro i hi
    show solveVec op.Ai op.A.rows rhs x i = _
    simp only [solveVec, hi, if_pos, rowFold_entries]
    rw [foldl_add_sum (fun p : Nat × ℚ => p.2 * rhs p.1) (rowEntries op.Ai i) 0, zero_add]
  · intro i hi
    show solveVec op.Ai op.A.rows rhs x i = x i
    simp [solveVec, hi]

/-- Witness for `cycle_terminal_solve` on a one-level hierarchy. -/
theorem cycle_terminal_solve_witness :
    (cycle [opsTriv] ⟨5, 7, 9⟩ vOne vZero []).1 0
      = ((rowEntries opsTriv.Ai 0).map (fun p => p.2 * vOne p.1)).sum :=
  (cycle_terminal_solve opsTriv ⟨5, 7, 9⟩ vOne vZero []).1 0 (by decide)

/-- Claim C9: with `ncycle = 0` the loop body of a non-terminal `cycle`
never runs: the call returns `x` and every scratch vector unchanged, and its
trace holds nothing but the invocation marker — no relaxation sweep, no
matrix-vector product, no recursive call. -/
theorem cycle_ncycle_zero (op nop : Ops) (ops : List Ops) (prm : Params)
    (rhs x : Vec) (ss : List Scratch) (h : prm.ncycle = 0) :
    cycle (op :: nop :: ops) prm rhs x ss = (x, ss, [Event.enter (ops.length + 2)]) := by
  rw [cycle_cons_cons, h]
  rfl

/-- Witness for `cycle_ncycle_zero` on a two-level hierarchy. -/
theorem cycle_ncycle_zero_witness :
    cycle [opsTriv, opsTriv] ⟨0, 3, 4⟩ vZero vOne [] = (vOne, [], [Event.enter 2]) :=
  cycle_ncycle_zero opsTriv opsTriv [] ⟨0, 3, 4⟩ vZero vOne [] rfl

/-- Claim C6: `cycle` is total (it is a Lean function), and its recursion
descends one level per call: an invocation with `k` levels remaining occurs
in the trace exactly `ncycle ^ (depth - k)` times for `1 ≤ k ≤ depth` and
never for any other `k` (first conjunct; `k = depth` is the single outer
call, `k = 1` the terminal level), and each such count is `ncycle` times the
count one level up (second conjunct) — so every descent path shrinks the
remaining sequence by one per recursive call and reaches the base case after
exactly `depth - current depth` calls. -/
theorem cycle_descent_structure (op : Ops) (l : List Ops) (prm : Params)
    (rhs x : Vec) (ss : List Scratch) :
    (∀ k, countE (Event.enter k) (cycle (op :: l) prm rhs x ss).2.2
        = if 1 ≤ k ∧ k ≤ l.length + 1 then prm.ncycle ^ (l.length + 1 - k) else 0)
    ∧ (∀ k, 1 ≤ k → k ≤ l.length →
        countE (Event.enter k) (cycle (op :: l) prm rhs x ss).2.2
          = prm.ncycle * countE (Event.enter (k + 1)) (cycle (op :: l) prm rhs x ss).2.2) := by
  refine ⟨fun k => cycle_count_enter prm k l op rhs x ss, fun k hk1 hk2 => ?_⟩
  rw [cycle_count_enter, cycle_count_enter]
  have c1 : 1 ≤ k ∧ k ≤ l.length + 1 := by omega
  have c2 : 1 ≤ k + 1 ∧ k + 1 ≤ l.length + 1 := by omega
  rw [if_pos c1, if_pos c2]
  have hd : l.length + 1 - k = (l.length + 1 - (k + 1)) + 1 := by omega
  rw [hd, pow_succ]
  ring

/-- Witness for `cycle_descent_structure` on a two-level hierarchy. -/
theorem cycle_descent_structure_witness :
    countE (Event.enter 1) (cycle [opsTriv, opsTriv] ⟨1, 0, 0⟩ vZero vZero []).2.2
      = (Params.mk 1 0 0).ncycle
        * countE (Event.enter 2) (cycle [opsTriv, opsTriv] ⟨1, 0, 0⟩ vZero vZero []).2.2 :=
  (cycle_descent_structure opsTriv [opsTriv] ⟨1, 0, 0⟩ vZero vZero []).2 1
    (by decide) (by decide)

/-- Claim C7: with `ncycle = 1` an outer `cycle` call on a depth-`d`
hierarchy performs exactly `d - 1` restriction products and `d - 1`
prolongation products; on a 3-level hierarchy with `ncycle = 2` the middle
level is entered twice and the terminal direct solve runs exactly 4 times;
and in general the direct solve runs `ncycle ^ (d - 1)` times. -/
theorem cycle_work_counts :
    (∀ (op : Ops) (l : List Ops) (prm : Params) (rhs x : Vec) (ss : List Scratch),
      prm.ncycle = 1 →
      countE Event.restrict (cycle (op :: l) prm rhs x ss).2.2 = l.length
      ∧ countE Event.prolong (cycle (op :: l) prm rhs x ss).2.2 = l.length)
    ∧ (∀ (o1 o2 o3 : Ops) (prm : Params) (rhs x : Vec) (ss : List Scratch),
      prm.ncycle = 2 →
      countE (Event.enter 2) (cycle [o1, o2, o3] prm rhs x ss).2.2 = 2
      ∧ countE Event.solve (cycle [o1, o2, o3] prm rhs x ss).2.2 = 4)
    ∧ (∀ (op : Ops) (l : List Ops) (prm : Params) (rhs x : Vec) (ss : List Scratch),
      countE Event.solve (cycle (op :: l) prm rhs x ss).2.2 = prm.ncycle ^ l.length) := by
  refine ⟨?_, ?_, ?_⟩
  · intro op l prm rhs x ss h
    exact ⟨cycle_count_rp prm _ (Or.inl rfl) h l op rhs x ss,
      cycle_count_rp prm _ (Or.inr rfl) h l op rhs x ss⟩
  · intro o1 o2 o3 prm rhs x ss h
    constructor
    · have he := cycle_count_enter prm 2 [o2, o3] o1 rhs x ss
      simpa [h] using he
    · have hs := cycle_count_solve prm [o2, o3] o1 rhs x ss
      rw [h] at hs
      simpa using hs
  · intro op l prm rhs x ss
    exact cycle_count_solve prm l op rhs x ss

/-- Witness for `cycle_work_counts`: two levels with `ncycle = 1`, and three
levels with `ncycle = 2`. -/
theorem cycle_work_counts_witness :
    countE Event.restrict (cycle [opsTriv, opsTriv] ⟨1, 0, 0⟩ vZero vZero []).2.2 = 1
    ∧ countE Event.solve (cycle [opsTriv, opsTriv, opsTriv] ⟨2, 0, 0⟩ vZero vZero []).2.2 = 4 :=
  ⟨(cycle_work_counts.1 opsTriv [opsTriv] ⟨1, 0, 0⟩ vZero vZero [] rfl).1,
   (cycle_work_counts.2.1 opsTriv opsTriv opsTriv ⟨2, 0, 0⟩ vZero vZero [] rfl).2⟩

/-! ### Claim C2: the non-terminal cycle body, step by step as the spec
states it -/

/-- Step (b) as the spec words it: `t[i] = rhs[i] - (A·x)[i]` for all `n`
fine rows, other entries of `t` untouched. -/
def specResidVec (A : SpMat) (rhs xv tv : Vec) : Vec :=
  fun i => if i < A.rows then rhs i - entrySum A xv i else tv i

/-- Step (c) as the spec words it: `nxt.f[i] = Σ_j R[i,j]·t[j]` for all `nc`
coarse rows. -/
def specRestrictVec (R : SpMat) (nc : Nat) (tv fv : Vec) : Vec :=
  fun i => if i < nc then entrySum R tv i else fv i

/-- Step (f) as the spec words it: `x[i] += Σ_j P[i,j]·nxt.u[j]` for all
fine rows — added to `x`, never assigned over it. -/
def specProlongAdd (P : SpMat) (n : Nat) (xv uv : Vec) : Vec :=
  fun i => if i < n then xv i + entrySum P uv i else xv i

/-- The loop body of one non-terminal `cycle` iteration, assembled from the
spec's step list (a)–(g): `npre` relaxation sweeps, the fine residual, the
restriction, the zero-initialisation of `nxt.u`, the recursive call on
`(nxt.f, nxt.u)`, the additive prolongation, `npost` relaxation sweeps. -/
def specCycleStep (op nop : Ops) (ops : List Ops) (prm : Params) (rhs : Vec)
    (s : Vec × List Scratch × List Event) : Vec × List Scratch × List Event :=
  let s0 := s.2.1.headD scratch0
  let s1 := s.2.1.tail.headD scratch0
  let srest := s.2.1.tail.tail
  let pre := relaxIter op.A rhs prm.npre (s.1, s0.t)
  let t2 := specResidVec op.A rhs pre.1 pre.2
  let f1 := specRestrictVec op.R nop.A.rows t2 s1.f
  let u0 := zeroVec nop.A.rows s1.u
  let rec1 := cycle (nop :: ops) prm f1 u0 (⟨u0, f1, s1.t⟩ :: srest)
  let x2 := specProlongAdd op.P op.A.rows pre.1 rec1.1
  let post := relaxIter op.A rhs prm.npost (x2, t2)
  (post.1,
   ⟨s0.u, s0.f, post.2⟩
     :: ⟨rec1.1, (rec1.2.1.headD scratch0).f, (rec1.2.1.headD scratch0).t⟩
     :: rec1.2.1.tail,
   s.2.2 ++ (List.replicate prm.npre Event.relax ++
     (Event.residual :: Event.restrict :: Event.zero ::
       (rec1.2.2 ++ (Event.prolong :: List.replicate prm.npost Event.relax)))))

/-- A row loop accumulating `acc += v * g[c]` from `0` is the sparse row
sum. -/
theorem rowFold_add_sum (A : SpMat) (g : Vec) (i : Nat) :
    rowFold A i (fun a c v => a + v * g c) 0 = entrySum A g i := by
  rw [rowFold_entries]
  rw [foldl_add_sum (fun p : Nat × ℚ => p.2 * g p.1) (rowEntries A i) 0]
  rw [zero_add]
  rfl

theorem specResidVec_eq (A : SpMat) (rhs xv tv : Vec) :
    specResidVec A rhs xv tv = residVec A rhs xv tv := by
  funext i
  simp [specResidVec, residVec, residRow_eq]

theorem specRestrictVec_eq (R : SpMat) (nc : Nat) (tv fv : Vec) :
    specRestrictVec R nc tv fv = restrictVec R nc tv fv := by
  funext i
  simp [specRestrictVec, restrictVec, rowFold_add_sum]

theorem specProlongAdd_eq (P : SpMat) (n : Nat) (xv uv : Vec) :
    specProlongAdd P n xv uv = prolongAdd P n xv uv := by
  funext i
  simp [specProlongAdd, prolongAdd, rowFold_add_sum]

/-- Claim C2: one `cycle` invocation on a non-terminal level runs exactly
`ncycle` iterations of the spec's step list, in order: `npre` relaxation
sweeps on `(rhs, x)`; the fine residual `t[i] = rhs[i] - (A·x)[i]` on all
`n` fine rows; the restriction `nxt.f[i] = Σ_j R[i,j]·t[j]` on all `nc`
coarse rows; the zero-initialisation of `nxt.u`; the recursive call on
`(nxt.f, nxt.u)`; the additive prolongation `x[i] += Σ_j P[i,j]·nxt.u[j]`;
and `npost` relaxation sweeps on `(rhs, x)`. -/
theorem cycle_nonterminal_steps (op nop : Ops) (ops : List Ops) (prm : Params)
    (rhs x : Vec) (ss : List Scratch) :
    cycle (op :: nop :: ops) prm rhs x ss
      = cycleLoop (specCycleStep op nop ops prm rhs) prm.ncycle
          (x, ss, [Event.enter (ops.length + 2)]) := by
  rw [cycle_cons_cons]
  congr 1
  funext s
  simp only [cycleBody, specCycleStep, specResidVec_eq, specRestrictVec_eq, specProlongAdd_eq]

end amg
